import Mathlib

/-!
Verification of `scripts/generate_favicon.py`, a one-shot favicon generator.

The Python source is shallowly embedded here:
* real-valued coordinates (Python floats) are modelled as exact rationals `ℚ`;
* the mutable RGBA byte buffer (`bytearray`) is a `List ℕ` passed explicitly,
  with Python slice assignment `buf[i:i+4] = bytes(color)` modelled by
  `sliceAssign`;
* `zlib.compress`, `zlib.crc32` and the trigonometric functions from `math`
  are opaque library functions, modelled as explicit function parameters;
* `struct.pack` fields are modelled by explicit big/little-endian byte lists.
-/

/-- RGBA color, a 4-tuple of byte values (Python tuples `BG`, `FG`). -/
abbrev Color := ℕ × ℕ × ℕ × ℕ

/-- Source: `bytes(color)` for a 4-tuple color. -/
def colorBytes (c : Color) : List ℕ := [c.1, c.2.1, c.2.2.1, c.2.2.2]

/-- Source: `BG = (0x2E, 0x4E, 0x8A, 255)`. -/
def BG : Color := (0x2E, 0x4E, 0x8A, 255)

/-- Source: `FG = (255, 255, 255, 255)`. -/
def FG : Color := (255, 255, 255, 255)

/-- Source: `clamp(value, lower, upper) = max(lower, min(upper, value))`. -/
def clamp (value lower upper : ℤ) : ℤ := max lower (min upper value)

/-- Python slice assignment `buf[i : i + len(r)] = r` on a byte list. -/
def sliceAssign (buf : List ℕ) (i : ℕ) (r : List ℕ) : List ℕ :=
  buf.take i ++ r ++ buf.drop (i + r.length)

/-- The 4 bytes of pixel number `p` in a flat RGBA buffer, `buf[p*4 : p*4+4]`. -/
def getPixel (buf : List ℕ) (p : ℕ) : List ℕ := (buf.drop (p * 4)).take 4

/-- A rectangle `(x1, y1, x2, y2)` in design-grid units. -/
abbrev Rect := ℚ × ℚ × ℚ × ℚ

/-- A polygon: the list of its vertices, implicitly closed. -/
abbrev Polygon := List (ℚ × ℚ)

/-- The float literal `1e-12` added to the denominator in `point_in_polygon`. -/
def EPS : ℚ := 1 / 1000000000000

/-- Source: `point_in_polygon(x, y, polygon)`: even-odd crossing test as the source
computes it.  The edge list pairs `polygon[i]` with `polygon[(i+1) % n]`,
and the ray-edge intersection uses the denominator `y2 - y1 + 1e-12`. -/
def point_in_polygon (x y : ℚ) (polygon : Polygon) : Bool :=
  (polygon.zip (polygon.rotate 1)).foldl
    (fun inside e =>
      if (decide (e.1.2 > y)) != (decide (e.2.2 > y)) then
        if x < (e.2.1 - e.1.1) * (y - e.1.2) / (e.2.2 - e.1.2 + EPS) + e.1.1
        then !inside else inside
      else inside)
    false

/-- Source: `set_pixel(buf, size, x, y, color)`: write the 4 color bytes at
`(y * size + x) * 4` when `(x, y)` is in canvas bounds, else do nothing. -/
def set_pixel (buf : List ℕ) (size : ℕ) (x y : ℤ) (color : Color) : List ℕ :=
  if 0 ≤ x ∧ x < size ∧ 0 ≤ y ∧ y < size then
    sliceAssign buf ((y * size + x) * 4).toNat (colorBytes color)
  else buf

/-- Python `min` over a nonempty list; the `[]` value is junk (Python raises). -/
def listMin : List ℚ → ℚ
  | [] => 0
  | x :: xs => xs.foldl min x

/-- Python `max` over a nonempty list; the `[]` value is junk (Python raises). -/
def listMax : List ℚ → ℚ
  | [] => 0
  | x :: xs => xs.foldl max x

/-- Source: `x_start = clamp(int(math.floor(x1)), 0, size)` in `fill_rect`. -/
def rectXStart (size : ℕ) (rect : Rect) : ℕ := (clamp ⌊rect.1⌋ 0 size).toNat

/-- Source: `x_end = clamp(int(math.ceil(x2)), 0, size)` in `fill_rect`, pre-widening. -/
def rectXEnd (size : ℕ) (rect : Rect) : ℕ := (clamp ⌈rect.2.2.1⌉ 0 size).toNat

/-- Source: `y_start = clamp(int(math.floor(y1)), 0, size)` in `fill_rect`. -/
def rectYStart (size : ℕ) (rect : Rect) : ℕ := (clamp ⌊rect.2.1⌋ 0 size).toNat

/-- Source: `y_end = clamp(int(math.ceil(y2)), 0, size)` in `fill_rect`, pre-widening. -/
def rectYEnd (size : ℕ) (rect : Rect) : ℕ := (clamp ⌈rect.2.2.2⌉ 0 size).toNat

/-- The degenerate-span widening in `fill_rect`:
`if end <= start: end = clamp(start + 1, 0, size)`. -/
def widenEnd (size s e : ℕ) : ℕ :=
  if e ≤ s then (clamp ((s : ℤ) + 1) 0 size).toNat else e

/-- Source: `fill_rect(buf, size, rect, color)`: paint every pixel of the clamped,
degenerate-widened integer span.  The source writes the 4 color bytes at a
running offset starting from `(y * size + x_start) * 4` and stepping by 4,
i.e. at `(y * size + x) * 4` for the current `x`. -/
def fill_rect (buf : List ℕ) (size : ℕ) (rect : Rect) (color : Color) :
    List ℕ :=
  let xStart := rectXStart size rect
  let xEnd := widenEnd size xStart (rectXEnd size rect)
  let yStart := rectYStart size rect
  let yEnd := widenEnd size yStart (rectYEnd size rect)
  let row := colorBytes color
  (List.range' yStart (yEnd - yStart)).foldl
    (fun b y =>
      (List.range' xStart (xEnd - xStart)).foldl
        (fun b' x => sliceAssign b' ((y * size + x) * 4) row) b)
    buf

/-- Source: `x_start = clamp(int(math.floor(min(xs))), 0, size)` in `fill_polygon`. -/
def polyXStart (size : ℕ) (polygon : Polygon) : ℕ :=
  (clamp ⌊listMin (polygon.map Prod.fst)⌋ 0 size).toNat

/-- Source: `x_end = clamp(int(math.ceil(max(xs))), 0, size)` in `fill_polygon`. -/
def polyXEnd (size : ℕ) (polygon : Polygon) : ℕ :=
  (clamp ⌈listMax (polygon.map Prod.fst)⌉ 0 size).toNat

/-- Source: `y_start = clamp(int(math.floor(min(ys))), 0, size)` in `fill_polygon`. -/
def polyYStart (size : ℕ) (polygon : Polygon) : ℕ :=
  (clamp ⌊listMin (polygon.map Prod.snd)⌋ 0 size).toNat

/-- Source: `y_end = clamp(int(math.ceil(max(ys))), 0, size)` in `fill_polygon`. -/
def polyYEnd (size : ℕ) (polygon : Polygon) : ℕ :=
  (clamp ⌈listMax (polygon.map Prod.snd)⌉ 0 size).toNat

/-- Source: `fill_polygon(buf, size, polygon, color)`: scan the clamped bounding box
and set every pixel whose center `(x + 0.5, y + 0.5)` passes
`point_in_polygon`. -/
def fill_polygon (buf : List ℕ) (size : ℕ) (polygon : Polygon)
    (color : Color) : List ℕ :=
  let xStart := polyXStart size polygon
  let xEnd := polyXEnd size polygon
  let yStart := polyYStart size polygon
  let yEnd := polyYEnd size polygon
  if xEnd ≤ xStart ∨ yEnd ≤ yStart then buf
  else
    (List.range' yStart (yEnd - yStart)).foldl
      (fun b (y : ℕ) =>
        (List.range' xStart (xEnd - xStart)).foldl
          (fun b' (x : ℕ) =>
            if point_in_polygon ((x : ℚ) + 1/2) ((y : ℚ) + 1/2) polygon then
              set_pixel b' size (x : ℤ) (y : ℤ) color
            else b')
          b)
      buf

/-- The trigonometric helpers `math.radians`, `math.cos`, `math.sin` used by
`arc_points`, modelled as opaque real-valued library functions on `ℚ`. -/
structure Trig where
  rad : ℚ → ℚ
  cos : ℚ → ℚ
  sin : ℚ → ℚ

/-- Source: `arc_points(cx, cy, rx, ry, start_deg, end_deg, steps)`: sample the
ellipse at `steps + 1` equally spaced parameter values between the two
angles (converted to radians), after forcing `steps = 2` when `steps < 2`.
The Python generator is materialized as the list of its yields. -/
def arc_points (T : Trig) (cx cy rx ry startDeg endDeg : ℚ) (steps : ℤ) :
    List (ℚ × ℚ) :=
  let start := T.rad startDeg
  let stop := T.rad endDeg
  let st : ℤ := if steps < 2 then 2 else steps
  (List.range (st.toNat + 1)).map
    (fun (i : ℕ) =>
      (cx + T.cos (start + (stop - start) * (i : ℚ) / (st : ℚ)) * rx,
       cy + T.sin (start + (stop - start) * (i : ℚ) / (st : ℚ)) * ry))

def A_OUTER : Polygon :=
  [(130, 404), (210, 100), (226, 100), (306, 404), (258, 404), (232, 302),
   (182, 302), (156, 404)]

def A_HOLE : Polygon := [(214, 180), (242, 288), (190, 288)]

def A_BAR : Rect := (180, 250, 252, 292)

def P_OUTER (T : Trig) : Polygon :=
  [(316, 404), (316, 116), (372, 116)] ++
    arc_points T 390 196 96 88 (-90) 90 48 ++
    [(362, 284), (362, 404), (316, 404)]

def P_HOLE (T : Trig) : Polygon :=
  [(336, 164), (372, 164)] ++
    arc_points T 384 194 70 62 (-90) 90 40 ++
    [(372, 226), (336, 226)]

def scale_points (points : Polygon) (scale : ℚ) : Polygon :=
  points.map (fun p => (p.1 * scale, p.2 * scale))

def scale_rect (rect : Rect) (scale : ℚ) : Rect :=
  (rect.1 * scale, rect.2.1 * scale, rect.2.2.1 * scale, rect.2.2.2 * scale)

/-- The canvas-construction phase of `make_png`: start from a buffer of
`size * size` background pixels and layer the glyph fills in source order. -/
def render (T : Trig) (size : ℕ) : List ℕ :=
  let scale : ℚ := (size : ℚ) / 512
  let buf0 := (List.replicate (size * size) (colorBytes BG)).flatten
  let b1 := fill_polygon buf0 size (scale_points A_OUTER scale) FG
  let b2 := fill_polygon b1 size (scale_points A_HOLE scale) BG
  let b3 := fill_rect b2 size (scale_rect A_BAR scale) FG
  let b4 := fill_polygon b3 size (scale_points (P_OUTER T) scale) FG
  fill_polygon b4 size (scale_points (P_HOLE T) scale) BG

/-- The scanline-serialization loop of `make_png`: for each row append the
filter byte `0` and the row's `stride = size * 4` pixel bytes. -/
def rawData (buf : List ℕ) (size : ℕ) : List ℕ :=
  (List.range size).foldl
    (fun raw y => raw ++ 0 :: (buf.drop (y * (size * 4))).take (size * 4)) []

/-- Source: `struct.pack("!I", n)`: big-endian 4-byte encoding (valid for
`n < 2^32`; Python raises on larger values). -/
def be32 (n : ℕ) : List ℕ :=
  [n / 16777216 % 256, n / 65536 % 256, n / 256 % 256, n % 256]

/-- Source: `struct.pack("<H", n)`: little-endian 2-byte encoding. -/
def le16 (n : ℕ) : List ℕ := [n % 256, n / 256 % 256]

/-- Source: `struct.pack("<I", n)`: little-endian 4-byte encoding (valid for
`n < 2^32`). -/
def le32 (n : ℕ) : List ℕ :=
  [n % 256, n / 256 % 256, n / 65536 % 256, n / 16777216 % 256]

/-- The fixed 8-byte prefix `b"\x89PNG\r\n\x1a\n"`. -/
def pngSignature : List ℕ := [137, 80, 78, 71, 13, 10, 26, 10]

/-- ASCII bytes of the tag of the header chunk. -/
def ihdrType : List ℕ := [73, 72, 68, 82]

/-- ASCII bytes of the tag of the data chunk. -/
def idatType : List ℕ := [73, 68, 65, 84]

/-- ASCII bytes of the tag of the end chunk. -/
def iendType : List ℕ := [73, 69, 78, 68]

/-- The nested `chunk` helper of `make_png`: length, tag, payload, then the
32-bit checksum of tag ++ payload (`zlib.crc32(...) & 0xFFFFFFFF`). -/
def chunk (crc32 : List ℕ → ℕ) (chunkType data : List ℕ) : List ℕ :=
  be32 data.length ++ chunkType ++ data ++
    be32 (crc32 (chunkType ++ data) % 4294967296)

/-- Source: `make_png(size)`, with `zlib.compress(_, 9)` and `zlib.crc32` passed in
as the opaque library functions `compress` and `crc32`.  The header payload
is `struct.pack("!IIBBBBB", size, size, 8, 6, 0, 0, 0)`. -/
def make_png (compress : List ℕ → List ℕ) (crc32 : List ℕ → ℕ) (T : Trig)
    (size : ℕ) : List ℕ :=
  let buf := render T size
  let raw := rawData buf size
  let compressed := compress raw
  let ihdr := be32 size ++ be32 size ++ [8, 6, 0, 0, 0]
  pngSignature ++ chunk crc32 ihdrType ihdr ++
    chunk crc32 idatType compressed ++ chunk crc32 iendType []

/-- The byte string written by `write_ico(path, png_data, size)`:
`struct.pack("<HHH", 0, 1, 1)` then
`struct.pack("<BBBBHHII", width, height, 0, 0, 0, 0, len(png_data), 22)`
then the embedded image bytes. -/
def ico_bytes (png_data : List ℕ) (size : ℕ) : List ℕ :=
  le16 0 ++ le16 1 ++ le16 1 ++
    [if size < 256 then size else 0, if size < 256 then size else 0, 0, 0] ++
    le16 0 ++ le16 0 ++ le32 png_data.length ++ le32 (6 + 16) ++ png_data

/-- Decode a little-endian 4-byte field (for checking directory entries). -/
def readLe32 : List ℕ → ℕ
  | a :: b :: c :: d :: _ => a + 256 * b + 65536 * c + 16777216 * d
  | _ => 0

/-- Read one big-endian 4-byte field and return the remaining bytes. -/
def readBe32 : List ℕ → Option (ℕ × List ℕ)
  | a :: b :: c :: d :: rest => some (((a * 256 + b) * 256 + c) * 256 + d, rest)
  | _ => none

/-- Modelled from the claim: parse a sequence of chunks, each a 4-byte
big-endian length, 4-byte tag, payload, and 4-byte checksum (not
re-verified).  The fuel bounds recursion depth. -/
def parseChunks : ℕ → List ℕ → Option (List (List ℕ × List ℕ))
  | _, [] => some []
  | 0, _ :: _ => none
  | fuel + 1, bs =>
    match readBe32 bs with
    | none => none
    | some (len, r1) =>
      if 4 + len + 4 ≤ r1.length then
        match parseChunks fuel (((r1.drop 4).drop len).drop 4) with
        | none => none
        | some cs => some ((r1.take 4, (r1.drop 4).take len) :: cs)
      else none

/-- Modelled from the claim: a conforming decoder for the containers this
program emits — check the signature, parse the three chunks, read the
header fields, decompress the data payload, and strip the per-scanline
filter bytes.  Returns `(width, height, bit depth, color type, pixels)`. -/
def decode_png (decompress : List ℕ → List ℕ) (bytes : List ℕ) :
    Option (ℕ × ℕ × ℕ × ℕ × List ℕ) :=
  if bytes.take 8 = pngSignature then
    match parseChunks bytes.length (bytes.drop 8) with
    | some [(t1, ihdr), (t2, idat), (t3, iend)] =>
      if t1 = ihdrType ∧ t2 = idatType ∧ t3 = iendType ∧ iend = [] then
        match readBe32 ihdr with
        | some (w, r1) =>
          match readBe32 r1 with
          | some (h, r2) =>
            match r2 with
            | [bd, ct, _, _, _] =>
              some (w, h, bd, ct,
                ((List.range h).map (fun y =>
                  (((decompress idat).drop (y * (w * 4 + 1))).drop 1).take
                    (w * 4))).flatten)
            | _ => none
          | none => none
        | none => none
      else none
    | _ => none
  else none

/-- Modelled from the spec: a chunk is the big-endian 4-byte payload
length, the 4-byte type tag, the payload, and the 32-bit checksum computed
over the tag concatenated with the payload. -/
def specChunk (crc32 : List ℕ → ℕ) (tag payload : List ℕ) : List ℕ :=
  be32 payload.length ++ tag ++ payload ++
    be32 (crc32 (tag ++ payload) % 4294967296)

/-- Modelled from the spec: the concatenation over all scanlines of a
single filter-type byte 0 followed by that scanline's RGBA bytes. -/
def specScanlines (buf : List ℕ) (size : ℕ) : List ℕ :=
  ((List.range size).map
    (fun y => 0 :: (buf.drop (y * (size * 4))).take (size * 4))).flatten

/-- Modelled from the claim (C1): the exact even-odd rule — a ray cast
toward +infinity in x flips parity at every non-horizontal edge it crosses,
with the exact ray-edge intersection (denominator `y2 - y1`, no epsilon). -/
def evenOddInside (x y : ℚ) (polygon : Polygon) : Bool :=
  (polygon.zip (polygon.rotate 1)).foldl
    (fun inside e =>
      if (decide (e.1.2 > y)) != (decide (e.2.2 > y)) then
        if x < (e.2.1 - e.1.1) * (y - e.1.2) / (e.2.2 - e.1.2) + e.1.1
        then !inside else inside
      else inside)
    false

/-- A triangle whose hypotenuse passes within `1e-12` of the pixel center
`(0.5, 0.5)`: the exact even-odd test and the source's epsilon-perturbed
test disagree on it. -/
def cexTriangle : Polygon := [(0, 0), (1 + 1/1000000000000, 1), (0, 1)]

/-- A triangle lying entirely outside every canvas: each of its points with
x ≥ 0 has y < 0.  (Its part with x ≥ 0 is the convex hull of the vertex
`(1/2, -3)` and the crossings of its other two edges with the axis x = 0,
which sit at y = (-1/2 - 5e-13)/6 and y = -3 + (7/2 + 1e-12)/3, all below
y = 0.)  Its top edge drops by `1.1e-12` over width 0.9, so the source's
epsilon-perturbed intersection at y = 0.5 jumps to x = 8, and the pixel
center `(0.5, 0.5)` wrongly tests inside. -/
def cexOffTriangle : Polygon :=
  [(-1, 1/2 + 1/1000000000000), (-1/10, 1/2 - 1/10000000000000), (1/2, -3)]

/-- A concrete triangle used to instantiate universally quantified claims. -/
def unitTri : Polygon := [(0, 0), (2, 0), (0, 2)]

/-- A concrete instantiation of the opaque trigonometric functions. -/
def trigZero : Trig := ⟨fun q => q, fun _ => 0, fun _ => 0⟩

theorem sliceAssign_length {buf : List ℕ} {i : ℕ} {r : List ℕ}
    (h : i + r.length ≤ buf.length) :
    (sliceAssign buf i r).length = buf.length := by
  simp only [sliceAssign, List.length_append, List.length_take, List.length_drop]
  omega

theorem sliceAssign_getElem? {buf : List ℕ} {i : ℕ} {r : List ℕ}
    (h : i + r.length ≤ buf.length) (j : ℕ) :
    (sliceAssign buf i r)[j]? =
      if i ≤ j ∧ j < i + r.length then r[j - i]? else buf[j]? := by
  have hA : (List.take i buf).length = i := by
    simp only [List.length_take]
    omega
  unfold sliceAssign
  rw [List.append_assoc, List.getElem?_append, hA]
  by_cases hj : j < i
  · rw [if_pos hj, if_neg (by omega), List.getElem?_take_of_lt hj]
  · rw [if_neg hj, List.getElem?_append]
    by_cases hj2 : j - i < r.length
    · rw [if_pos hj2, if_pos (by omega)]
    · rw [if_neg hj2, if_neg (by omega), List.getElem?_drop]
      congr 1
      omega

theorem getPixel_sliceAssign_self {buf r : List ℕ} {p : ℕ}
    (hr : r.length = 4) (h : p * 4 + 4 ≤ buf.length) :
    getPixel (sliceAssign buf (p * 4) r) p = r := by
  apply List.ext_getElem?
  intro j
  unfold getPixel
  by_cases hj : j < 4
  · rw [List.getElem?_take_of_lt hj, List.getElem?_drop,
      sliceAssign_getElem? (by omega), if_pos (by omega)]
    congr 1
    omega
  · rw [List.getElem?_eq_none (by simp only [List.length_take]; omega),
      List.getElem?_eq_none (by omega)]

theorem getPixel_sliceAssign_ne {buf r : List ℕ} {p q : ℕ}
    (hr : r.length = 4) (h : p * 4 + 4 ≤ buf.length) (hne : q ≠ p) :
    getPixel (sliceAssign buf (p * 4) r) q = getPixel buf q := by
  apply List.ext_getElem?
  intro j
  unfold getPixel
  by_cases hj : j < 4
  · rw [List.getElem?_take_of_lt hj, List.getElem?_take_of_lt hj,
      List.getElem?_drop, List.getElem?_drop,
      sliceAssign_getElem? (by omega), if_neg (by omega)]
  · rw [List.getElem?_eq_none (by simp only [List.length_take]; omega),
      List.getElem?_eq_none (by simp only [List.length_take]; omega)]

theorem pixel_bound {size x y : ℕ} (hx : x < size) (hy : y < size) :
    (y * size + x) * 4 + 4 ≤ size * size * 4 := by
  have h1 : y * size + x + 1 ≤ size * size := by
    calc y * size + x + 1 ≤ y * size + size := by omega
    _ = (y + 1) * size := by ring
    _ ≤ size * size := Nat.mul_le_mul_right _ hy
  calc (y * size + x) * 4 + 4 = (y * size + x + 1) * 4 := by ring
  _ ≤ size * size * 4 := Nat.mul_le_mul_right 4 h1

theorem pixel_index_inj {size x y qx qy : ℕ} (hx : x < size) (hqx : qx < size)
    (h : qy * size + qx = y * size + x) : qx = x ∧ qy = y := by
  have hs : 0 < size := by omega
  have h1 : (qy * size + qx) % size = qx := by
    rw [Nat.add_comm, Nat.add_mul_mod_self_right]
    exact Nat.mod_eq_of_lt hqx
  have h2 : (y * size + x) % size = x := by
    rw [Nat.add_comm, Nat.add_mul_mod_self_right]
    exact Nat.mod_eq_of_lt hx
  have hxx : qx = x := by rw [← h1, ← h2, h]
  refine ⟨hxx, ?_⟩
  have : qy * size = y * size := by omega
  exact Nat.eq_of_mul_eq_mul_right hs this

theorem clamp_toNat_le {size : ℕ} {v : ℤ} : (clamp v 0 size).toNat ≤ size := by
  simp only [clamp]
  omega

theorem colorBytes_length (c : Color) : (colorBytes c).length = 4 := rfl

section PaintFold

variable {size : ℕ} {color : Color} {cond : ℕ → ℕ → Bool}
variable {step : List ℕ → ℕ → ℕ → List ℕ}

theorem paint_step_length
    (hstep : ∀ b x y, x < size → y < size → step b x y =
      if cond x y then sliceAssign b ((y * size + x) * 4) (colorBytes color)
      else b)
    {b : List ℕ} {x y : ℕ} (hx : x < size) (hy : y < size)
    (hb : b.length = size * size * 4) :
    (step b x y).length = size * size * 4 := by
  rw [hstep b x y hx hy]
  by_cases hc : cond x y
  · rw [if_pos hc, sliceAssign_length]
    · exact hb
    · rw [colorBytes_length, hb]
      exact pixel_bound hx hy
  · rw [if_neg hc]
    exact hb

theorem paint_step_getPixel
    (hstep : ∀ b x y, x < size → y < size → step b x y =
      if cond x y then sliceAssign b ((y * size + x) * 4) (colorBytes color)
      else b)
    {b : List ℕ} {x y qx qy : ℕ}
    (hx : x < size) (hy : y < size) (hqx : qx < size) (hqy : qy < size)
    (hb : b.length = size * size * 4) :
    getPixel (step b x y) (qy * size + qx) =
      if qx = x ∧ qy = y ∧ cond x y = true then colorBytes color
      else getPixel b (qy * size + qx) := by
  rw [hstep b x y hx hy]
  by_cases hc : cond x y
  · rw [if_pos hc]
    by_cases heq : qx = x ∧ qy = y
    · obtain ⟨rfl, rfl⟩ := heq
      rw [if_pos ⟨rfl, rfl, hc⟩]
      exact getPixel_sliceAssign_self (colorBytes_length _)
        (by rw [hb]; exact pixel_bound hx hy)
    · rw [if_neg (fun h => heq ⟨h.1, h.2.1⟩)]
      apply getPixel_sliceAssign_ne (colorBytes_length _)
        (by rw [hb]; exact pixel_bound hx hy)
      intro hcontra
      exact heq (pixel_index_inj hx hqx hcontra)
  · rw [if_neg hc, if_neg (fun h => hc h.2.2)]

theorem paint_row_length
    (hstep : ∀ b x y, x < size → y < size → step b x y =
      if cond x y then sliceAssign b ((y * size + x) * 4) (colorBytes color)
      else b) :
    ∀ (w xStart y : ℕ) (b : List ℕ), xStart + w ≤ size → y < size →
      b.length = size * size * 4 →
      ((List.range' xStart w).foldl (fun b' x => step b' x y) b).length =
        size * size * 4 := by
  intro w
  induction w with
  | zero =>
    intro xStart y b _ _ hb
    simpa using hb
  | succ n ih =>
    intro xStart y b hw hy hb
    rw [List.range'_succ, List.foldl_cons]
    exact ih (xStart + 1) y (step b xStart y) (by omega) hy
      (paint_step_length hstep (by omega) hy hb)

theorem paint_row_getPixel
    (hstep : ∀ b x y, x < size → y < size → step b x y =
      if cond x y then sliceAssign b ((y * size + x) * 4) (colorBytes color)
      else b) :
    ∀ (w xStart y : ℕ) (b : List ℕ), xStart + w ≤ size → y < size →
      b.length = size * size * 4 → ∀ qx qy : ℕ, qx < size → qy < size →
      getPixel ((List.range' xStart w).foldl (fun b' x => step b' x y) b)
          (qy * size + qx) =
        if xStart ≤ qx ∧ qx < xStart + w ∧ qy = y ∧ cond qx y = true
        then colorBytes color else getPixel b (qy * size + qx) := by
  intro w
  induction w with
  | zero =>
    intro xStart y b hw hy hb qx qy hqx hqy
    rw [if_neg (fun h => by obtain ⟨h1, h2, _, _⟩ := h; omega)]
    simp
  | succ n ih =>
    intro xStart y b hw hy hb qx qy hqx hqy
    rw [List.range'_succ, List.foldl_cons]
    have hx0 : xStart < size := by omega
    have hlen : (step b xStart y).length = size * size * 4 :=
      paint_step_length hstep hx0 hy hb
    rw [ih (xStart + 1) y (step b xStart y) (by omega) hy hlen qx qy hqx hqy]
    rw [paint_step_getPixel hstep hx0 hy hqx hqy hb]
    by_cases hyy : qy = y
    · subst hyy
      by_cases hc : cond qx qy = true
      · by_cases hqx0 : qx = xStart
        · subst hqx0
          rw [if_neg (fun h => by obtain ⟨h1, _, _, _⟩ := h; omega),
            if_pos ⟨rfl, rfl, hc⟩, if_pos ⟨le_refl _, by omega, rfl, hc⟩]
        · by_cases hin : xStart + 1 ≤ qx ∧ qx < xStart + 1 + n
          · rw [if_pos ⟨hin.1, hin.2, rfl, hc⟩,
              if_pos ⟨by omega, by omega, rfl, hc⟩]
          · rw [if_neg (fun h => hin ⟨h.1, h.2.1⟩),
              if_neg (fun h => hqx0 h.1),
              if_neg (fun h => by
                obtain ⟨h1, h2, _, _⟩ := h
                exact hin ⟨by omega, by omega⟩)]
      · rw [if_neg (fun h => hc h.2.2.2),
          if_neg (fun h => by rw [h.1] at hc; exact hc h.2.2),
          if_neg (fun h => hc h.2.2.2)]
    · rw [if_neg (fun h => hyy h.2.2.1), if_neg (fun h => hyy h.2.1),
        if_neg (fun h => hyy h.2.2.1)]

theorem paint_grid_length
    (hstep : ∀ b x y, x < size → y < size → step b x y =
      if cond x y then sliceAssign b ((y * size + x) * 4) (colorBytes color)
      else b) :
    ∀ (hgt yStart xStart w : ℕ) (b : List ℕ), yStart + hgt ≤ size →
      xStart + w ≤ size → b.length = size * size * 4 →
      ((List.range' yStart hgt).foldl
        (fun b' y => (List.range' xStart w).foldl (fun b'' x => step b'' x y) b')
        b).length = size * size * 4 := by
  intro hgt
  induction hgt with
  | zero =>
    intro yStart xStart w b _ _ hb
    simpa using hb
  | succ n ih =>
    intro yStart xStart w b hh hw hb
    rw [List.range'_succ, List.foldl_cons]
    exact ih (yStart + 1) xStart w _ (by omega) hw
      (paint_row_length hstep w xStart yStart b hw (by omega) hb)

theorem paint_grid_getPixel
    (hstep : ∀ b x y, x < size → y < size → step b x y =
      if cond x y then sliceAssign b ((y * size + x) * 4) (colorBytes color)
      else b) :
    ∀ (hgt yStart xStart w : ℕ) (b : List ℕ), yStart + hgt ≤ size →
      xStart + w ≤ size → b.length = size * size * 4 →
      ∀ qx qy : ℕ, qx < size → qy < size →
      getPixel ((List.range' yStart hgt).foldl
          (fun b' y =>
            (List.range' xStart w).foldl (fun b'' x => step b'' x y) b')
          b) (qy * size + qx) =
        if xStart ≤ qx ∧ qx < xStart + w ∧ yStart ≤ qy ∧ qy < yStart + hgt ∧
            cond qx qy = true
        then colorBytes color else getPixel b (qy * size + qx) := by
  intro hgt
  induction hgt with
  | zero =>
    intro yStart xStart w b hh hw hb qx qy hqx hqy
    rw [if_neg (fun h => by obtain ⟨_, _, h3, h4, _⟩ := h; omega)]
    simp
  | succ n ih =>
    intro yStart xStart w b hh hw hb qx qy hqx hqy
    rw [List.range'_succ, List.foldl_cons]
    have hy0 : yStart < size := by omega
    have hlen : ((List.range' xStart w).foldl
        (fun b'' x => step b'' x yStart) b).length = size * size * 4 :=
      paint_row_length hstep w xStart yStart b hw hy0 hb
    rw [ih (yStart + 1) xStart w _ (by omega) hw hlen qx qy hqx hqy]
    rw [paint_row_getPixel hstep w xStart yStart b hw hy0 hb qx qy hqx hqy]
    by_cases hX : xStart ≤ qx ∧ qx < xStart + w
    · by_cases hc : cond qx qy = true
      · by_cases hqy0 : qy = yStart
        · subst hqy0
          rw [if_neg (fun h => by obtain ⟨_, _, h3, _, _⟩ := h; omega),
            if_pos ⟨hX.1, hX.2, rfl, hc⟩,
            if_pos ⟨hX.1, hX.2, le_refl _, by omega, hc⟩]
        · by_cases hband : yStart + 1 ≤ qy ∧ qy < yStart + 1 + n
          · rw [if_pos ⟨hX.1, hX.2, hband.1, hband.2, hc⟩,
              if_pos ⟨hX.1, hX.2, by omega, by omega, hc⟩]
          · rw [if_neg (fun h => hband ⟨h.2.2.1, h.2.2.2.1⟩),
              if_neg (fun h => hqy0 h.2.2.1),
              if_neg (fun h => by
                obtain ⟨_, _, h3, h4, _⟩ := h
                exact hband ⟨by omega, by omega⟩)]
      · rw [if_neg (fun h => hc h.2.2.2.2),
          if_neg (fun h => by rw [h.2.2.1] at hc; exact hc h.2.2.2),
          if_neg (fun h => hc h.2.2.2.2)]
    · rw [if_neg (fun h => hX ⟨h.1, h.2.1⟩), if_neg (fun h => hX ⟨h.1, h.2.1⟩),
        if_neg (fun h => hX ⟨h.1, h.2.1⟩)]

end PaintFold

theorem widenEnd_le {size s e : ℕ} (he : e ≤ size) : widenEnd size s e ≤ size := by
  unfold widenEnd
  split
  · exact clamp_toNat_le
  · exact he

theorem widenEnd_ge {size s e : ℕ} (hs : s ≤ size) : s ≤ widenEnd size s e := by
  unfold widenEnd clamp
  split
  · omega
  · omega

theorem fill_rect_getPixel {buf : List ℕ} {size : ℕ} {rect : Rect}
    {color : Color} (hb : buf.length = size * size * 4)
    {qx qy : ℕ} (hqx : qx < size) (hqy : qy < size) :
    getPixel (fill_rect buf size rect color) (qy * size + qx) =
      if rectXStart size rect ≤ qx ∧
          qx < widenEnd size (rectXStart size rect) (rectXEnd size rect) ∧
          rectYStart size rect ≤ qy ∧
          qy < widenEnd size (rectYStart size rect) (rectYEnd size rect)
      then colorBytes color else getPixel buf (qy * size + qx) := by
  have hxS : rectXStart size rect ≤ size := clamp_toNat_le
  have hyS : rectYStart size rect ≤ size := clamp_toNat_le
  have hxE : widenEnd size (rectXStart size rect) (rectXEnd size rect) ≤ size :=
    widenEnd_le clamp_toNat_le
  have hyE : widenEnd size (rectYStart size rect) (rectYEnd size rect) ≤ size :=
    widenEnd_le clamp_toNat_le
  have hstep : ∀ (b : List ℕ) (x y : ℕ), x < size → y < size →
      (fun (b' : List ℕ) (x' y' : ℕ) =>
        sliceAssign b' ((y' * size + x') * 4) (colorBytes color)) b x y =
      if (fun (_ _ : ℕ) => true) x y = true then
        sliceAssign b ((y * size + x) * 4) (colorBytes color)
      else b := by
    intro b x y _ _
    rw [if_pos rfl]
  have hGrid := paint_grid_getPixel hstep
    (widenEnd size (rectYStart size rect) (rectYEnd size rect) -
      rectYStart size rect)
    (rectYStart size rect) (rectXStart size rect)
    (widenEnd size (rectXStart size rect) (rectXEnd size rect) -
      rectXStart size rect)
    buf (by omega) (by omega) hb qx qy hqx hqy
  refine Eq.trans (a := getPixel (fill_rect buf size rect color)
    (qy * size + qx)) (by exact hGrid) ?_
  refine if_congr ?_ rfl rfl
  constructor
  · rintro ⟨h1, h2, h3, h4, _⟩
    exact ⟨h1, by omega, h3, by omega⟩
  · rintro ⟨h1, h2, h3, h4⟩
    exact ⟨h1, by omega, h3, by omega, rfl⟩

theorem fill_rect_length {buf : List ℕ} {size : ℕ} {rect : Rect}
    {color : Color} (hb : buf.length = size * size * 4) :
    (fill_rect buf size rect color).length = size * size * 4 := by
  have hstep : ∀ (b : List ℕ) (x y : ℕ), x < size → y < size →
      (fun (b' : List ℕ) (x' y' : ℕ) =>
        sliceAssign b' ((y' * size + x') * 4) (colorBytes color)) b x y =
      if (fun (_ _ : ℕ) => true) x y = true then
        sliceAssign b ((y * size + x) * 4) (colorBytes color)
      else b := by
    intro b x y _ _
    rw [if_pos rfl]
  have hxS : rectXStart size rect ≤ size := clamp_toNat_le
  have hyS : rectYStart size rect ≤ size := clamp_toNat_le
  have hxE : widenEnd size (rectXStart size rect) (rectXEnd size rect) ≤ size :=
    widenEnd_le clamp_toNat_le
  have hyE : widenEnd size (rectYStart size rect) (rectYEnd size rect) ≤ size :=
    widenEnd_le clamp_toNat_le
  exact paint_grid_length hstep
    (widenEnd size (rectYStart size rect) (rectYEnd size rect) -
      rectYStart size rect)
    (rectYStart size rect) (rectXStart size rect)
    (widenEnd size (rectXStart size rect) (rectXEnd size rect) -
      rectXStart size rect)
    buf (by omega) (by omega) hb

theorem toNat_pixel_index {size : ℕ} {x y : ℤ} (hx : 0 ≤ x) (hy : 0 ≤ y) :
    ((y * size + x) * 4).toNat = (y.toNat * size + x.toNat) * 4 := by
  lift x to ℕ using hx
  lift y to ℕ using hy
  rw [show ((y : ℤ) * size + x) * 4 = (((y * size + x) * 4 : ℕ) : ℤ) from by
    push_cast
    ring]
  simp only [Int.toNat_natCast]

theorem set_pixel_length {buf : List ℕ} {size : ℕ} {x y : ℤ} {color : Color}
    (hb : buf.length = size * size * 4) :
    (set_pixel buf size x y color).length = size * size * 4 := by
  unfold set_pixel
  split
  case isTrue h =>
    obtain ⟨h1, h2, h3, h4⟩ := h
    rw [sliceAssign_length]
    · exact hb
    · rw [colorBytes_length, hb, toNat_pixel_index h1 h3]
      exact pixel_bound (by omega) (by omega)
  case isFalse h => exact hb

theorem polyStep_eq (size : ℕ) (polygon : Polygon) (color : Color) :
    ∀ (b : List ℕ) (x y : ℕ), x < size → y < size →
      (fun (b' : List ℕ) (x' y' : ℕ) =>
        if point_in_polygon ((x' : ℚ) + 1/2) ((y' : ℚ) + 1/2) polygon then
          set_pixel b' size (x' : ℤ) (y' : ℤ) color
        else b') b x y =
      if (fun (x' y' : ℕ) =>
          point_in_polygon ((x' : ℚ) + 1/2) ((y' : ℚ) + 1/2) polygon) x y = true
      then sliceAssign b ((y * size + x) * 4) (colorBytes color) else b := by
  intro b x y hx hy
  simp only
  by_cases hc : point_in_polygon ((x : ℚ) + 1/2) ((y : ℚ) + 1/2) polygon = true
  · rw [if_pos hc, if_pos hc]
    unfold set_pixel
    rw [if_pos ⟨Int.natCast_nonneg x, by exact_mod_cast hx,
      Int.natCast_nonneg y, by exact_mod_cast hy⟩]
    rw [toNat_pixel_index (Int.natCast_nonneg x) (Int.natCast_nonneg y)]
    simp
  · rw [if_neg hc, if_neg hc]

theorem fill_polygon_getPixel {buf : List ℕ} {size : ℕ} {polygon : Polygon}
    {color : Color} (hb : buf.length = size * size * 4)
    {qx qy : ℕ} (hqx : qx < size) (hqy : qy < size) :
    getPixel (fill_polygon buf size polygon color) (qy * size + qx) =
      if polyXStart size polygon ≤ qx ∧ qx < polyXEnd size polygon ∧
          polyYStart size polygon ≤ qy ∧ qy < polyYEnd size polygon ∧
          point_in_polygon ((qx : ℚ) + 1/2) ((qy : ℚ) + 1/2) polygon = true
      then colorBytes color else getPixel buf (qy * size + qx) := by
  have hxS : polyXStart size polygon ≤ size := clamp_toNat_le
  have hyS : polyYStart size polygon ≤ size := clamp_toNat_le
  have hxE : polyXEnd size polygon ≤ size := clamp_toNat_le
  have hyE : polyYEnd size polygon ≤ size := clamp_toNat_le
  by_cases hdeg : polyXEnd size polygon ≤ polyXStart size polygon ∨
      polyYEnd size polygon ≤ polyYStart size polygon
  · have hret : fill_polygon buf size polygon color = buf := by
      unfold fill_polygon
      rw [if_pos hdeg]
    rw [hret, if_neg (fun h => by
      obtain ⟨h1, h2, h3, h4, _⟩ := h
      rcases hdeg with hd | hd <;> omega)]
  · have hret : fill_polygon buf size polygon color =
        (List.range' (polyYStart size polygon)
          (polyYEnd size polygon - polyYStart size polygon)).foldl
          (fun b (y : ℕ) =>
            (List.range' (polyXStart size polygon)
              (polyXEnd size polygon - polyXStart size polygon)).foldl
              (fun b' (x : ℕ) =>
                if point_in_polygon ((x : ℚ) + 1/2) ((y : ℚ) + 1/2) polygon
                then set_pixel b' size (x : ℤ) (y : ℤ) color
                else b')
              b)
          buf := by
      unfold fill_polygon
      rw [if_neg hdeg]
    rw [hret]
    have hGrid := paint_grid_getPixel (polyStep_eq size polygon color)
      (polyYEnd size polygon - polyYStart size polygon)
      (polyYStart size polygon) (polyXStart size polygon)
      (polyXEnd size polygon - polyXStart size polygon)
      buf (by omega) (by omega) hb qx qy hqx hqy
    refine Eq.trans (by exact hGrid) ?_
    refine if_congr ?_ rfl rfl
    constructor
    · rintro ⟨h1, h2, h3, h4, h5⟩
      exact ⟨h1, by omega, h3, by omega, h5⟩
    · rintro ⟨h1, h2, h3, h4, h5⟩
      exact ⟨h1, by omega, h3, by omega, h5⟩

theorem fill_polygon_length {buf : List ℕ} {size : ℕ} {polygon : Polygon}
    {color : Color} (hb : buf.length = size * size * 4) :
    (fill_polygon buf size polygon color).length = size * size * 4 := by
  have hxS : polyXStart size polygon ≤ size := clamp_toNat_le
  have hyS : polyYStart size polygon ≤ size := clamp_toNat_le
  have hxE : polyXEnd size polygon ≤ size := clamp_toNat_le
  have hyE : polyYEnd size polygon ≤ size := clamp_toNat_le
  by_cases hdeg : polyXEnd size polygon ≤ polyXStart size polygon ∨
      polyYEnd size polygon ≤ polyYStart size polygon
  · have hret : fill_polygon buf size polygon color = buf := by
      unfold fill_polygon
      rw [if_pos hdeg]
    rw [hret]
    exact hb
  · have hret : fill_polygon buf size polygon color =
        (List.range' (polyYStart size polygon)
          (polyYEnd size polygon - polyYStart size polygon)).foldl
          (fun b (y : ℕ) =>
            (List.range' (polyXStart size polygon)
              (polyXEnd size polygon - polyXStart size polygon)).foldl
              (fun b' (x : ℕ) =>
                if point_in_polygon ((x : ℚ) + 1/2) ((y : ℚ) + 1/2) polygon
                then set_pixel b' size (x : ℤ) (y : ℤ) color
                else b')
              b)
          buf := by
      unfold fill_polygon
      rw [if_neg hdeg]
    rw [hret]
    exact paint_grid_length (polyStep_eq size polygon color)
      (polyYEnd size polygon - polyYStart size polygon)
      (polyYStart size polygon) (polyXStart size polygon)
      (polyXEnd size polygon - polyXStart size polygon)
      buf (by omega) (by omega) hb

theorem le_foldl_min {c : ℚ} :
    ∀ (xs : List ℚ) (x : ℚ), c ≤ x → (∀ a ∈ xs, c ≤ a) → c ≤ xs.foldl min x := by
  intro xs
  induction xs with
  | nil =>
    intro x hx _
    simpa using hx
  | cons y ys ih =>
    intro x hx h
    rw [List.foldl_cons]
    exact ih (min x y) (le_min hx (h y (by simp))) (fun a ha => h a (by simp [ha]))

theorem le_listMin {c : ℚ} {l : List ℚ} (hne : l ≠ []) (h : ∀ a ∈ l, c ≤ a) :
    c ≤ listMin l := by
  cases l with
  | nil => exact absurd rfl hne
  | cons x xs =>
    exact le_foldl_min xs x (h x (by simp)) (fun a ha => h a (by simp [ha]))

theorem foldl_max_le {c : ℚ} :
    ∀ (xs : List ℚ) (x : ℚ), x ≤ c → (∀ a ∈ xs, a ≤ c) → xs.foldl max x ≤ c := by
  intro xs
  induction xs with
  | nil =>
    intro x hx _
    simpa using hx
  | cons y ys ih =>
    intro x hx h
    rw [List.foldl_cons]
    exact ih (max x y) (max_le hx (h y (by simp))) (fun a ha => h a (by simp [ha]))

theorem listMax_le {c : ℚ} {l : List ℚ} (hne : l ≠ []) (h : ∀ a ∈ l, a ≤ c) :
    listMax l ≤ c := by
  cases l with
  | nil => exact absurd rfl hne
  | cons x xs =>
    exact foldl_max_le xs x (h x (by simp)) (fun a ha => h a (by simp [ha]))

theorem pip_cexTriangle_eval :
    point_in_polygon (((0 : ℕ) : ℚ) + 1/2) (((0 : ℕ) : ℚ) + 1/2) cexTriangle =
      false := by
  norm_num [point_in_polygon, cexTriangle, List.rotate, EPS]

/-- C1 (amended): for a nonempty polygon, `fill_polygon` sets to the given
color exactly those in-canvas pixels inside the integer-rounded,
canvas-clamped bounding-box scan region whose center `(x + 0.5, y + 0.5)`
passes the source's even-odd test (whose ray-edge intersection uses the
epsilon-perturbed denominator `y2 - y1 + 1e-12`); every other pixel — in
particular every pixel outside that bounding box — keeps its previous
value. -/
theorem fill_polygon_paints_exactly (size : ℕ) (buf : List ℕ)
    (polygon : Polygon) (color : Color) (hb : buf.length = size * size * 4)
    (hne : polygon ≠ []) (qx qy : ℕ) (hqx : qx < size) (hqy : qy < size) :
    getPixel (fill_polygon buf size polygon color) (qy * size + qx) =
      if polyXStart size polygon ≤ qx ∧ qx < polyXEnd size polygon ∧
          polyYStart size polygon ≤ qy ∧ qy < polyYEnd size polygon ∧
          point_in_polygon ((qx : ℚ) + 1/2) ((qy : ℚ) + 1/2) polygon = true
      then colorBytes color else getPixel buf (qy * size + qx) :=
  fill_polygon_getPixel hb hqx hqy

theorem fill_polygon_paints_exactly_witness :
    getPixel (fill_polygon [1, 2, 3, 4] 1 unitTri FG) (0 * 1 + 0) =
      if polyXStart 1 unitTri ≤ 0 ∧ 0 < polyXEnd 1 unitTri ∧
          polyYStart 1 unitTri ≤ 0 ∧ 0 < polyYEnd 1 unitTri ∧
          point_in_polygon (((0 : ℕ) : ℚ) + 1/2) (((0 : ℕ) : ℚ) + 1/2)
            unitTri = true
      then colorBytes FG else getPixel [1, 2, 3, 4] (0 * 1 + 0) :=
  fill_polygon_paints_exactly 1 [1, 2, 3, 4] unitTri FG (by decide) (by decide)
    0 0 (by decide) (by decide)

/-- C1 counterexample: the pixel center `(0.5, 0.5)` of the only pixel of a
1-canvas lies inside `cexTriangle` under the exact even-odd rule, yet
`fill_polygon` does not paint it, because the epsilon-perturbed
intersection of the source's test lands exactly on the ray origin. -/
theorem fill_polygon_exact_even_odd_cex :
    evenOddInside (1/2) (1/2) cexTriangle = true ∧
    getPixel (fill_polygon [46, 78, 138, 255] 1 cexTriangle FG) (0 * 1 + 0) ≠
      colorBytes FG := by
  constructor
  · norm_num [evenOddInside, cexTriangle, List.rotate]
  · rw [fill_polygon_getPixel (by decide) (by decide) (by decide)]
    rw [if_neg (fun h => by
      have h5 := h.2.2.2.2
      rw [pip_cexTriangle_eval] at h5
      exact Bool.false_ne_true h5)]
    decide

/-- C2 (amended): neither primitive raises an error on off-canvas shapes,
and a nonempty polygon all of whose vertices lie beyond one side of the
canvas (all x ≤ 0, all x ≥ size, all y ≤ 0, or all y ≥ size — so its
clamped integer scan box is empty) leaves every pixel of the canvas
unchanged.  The unconditional unchanged-claim fails for both primitives
(see the counterexample): `fill_rect`'s degenerate-span widening can paint
a clamped border strip for a fully off-canvas rectangle, and
`fill_polygon`'s epsilon-perturbed crossing test can paint a pixel for a
fully off-canvas polygon whose bounding box straddles a canvas corner. -/
theorem fill_polygon_offcanvas_unchanged (size : ℕ) (buf : List ℕ)
    (polygon : Polygon) (color : Color) (hne : polygon ≠ [])
    (hoff : (∀ p ∈ polygon, p.1 ≤ 0) ∨ (∀ p ∈ polygon, (size : ℚ) ≤ p.1) ∨
      (∀ p ∈ polygon, p.2 ≤ 0) ∨ (∀ p ∈ polygon, (size : ℚ) ≤ p.2)) :
    fill_polygon buf size polygon color = buf := by
  have hmapne : ∀ f : ℚ × ℚ → ℚ, polygon.map f ≠ [] := by
    intro f hmap
    exact hne (List.map_eq_nil_iff.mp hmap)
  have hmem : ∀ (f : ℚ × ℚ → ℚ) (c : ℚ), (∀ p ∈ polygon, f p ≤ c) →
      ∀ a ∈ polygon.map f, a ≤ c := by
    intro f c h a ha
    rw [List.mem_map] at ha
    obtain ⟨p, hp, rfl⟩ := ha
    exact h p hp
  have hmem' : ∀ (f : ℚ × ℚ → ℚ) (c : ℚ), (∀ p ∈ polygon, c ≤ f p) →
      ∀ a ∈ polygon.map f, c ≤ a := by
    intro f c h a ha
    rw [List.mem_map] at ha
    obtain ⟨p, hp, rfl⟩ := ha
    exact h p hp
  suffices hdeg : polyXEnd size polygon ≤ polyXStart size polygon ∨
      polyYEnd size polygon ≤ polyYStart size polygon by
    unfold fill_polygon
    rw [if_pos hdeg]
  rcases hoff with h | h | h | h
  · left
    have hmax : listMax (polygon.map Prod.fst) ≤ 0 :=
      listMax_le (hmapne _) (hmem _ _ h)
    have hceil : ⌈listMax (polygon.map Prod.fst)⌉ ≤ 0 :=
      Int.ceil_le.mpr (by exact_mod_cast hmax)
    have hE : polyXEnd size polygon = 0 := by
      unfold polyXEnd clamp
      omega
    omega
  · left
    have hmin : (size : ℚ) ≤ listMin (polygon.map Prod.fst) :=
      le_listMin (hmapne _) (hmem' _ _ h)
    have hfloor : (size : ℤ) ≤ ⌊listMin (polygon.map Prod.fst)⌋ :=
      Int.le_floor.mpr (by exact_mod_cast hmin)
    have hS : polyXStart size polygon = size := by
      unfold polyXStart clamp
      omega
    have hE : polyXEnd size polygon ≤ size := clamp_toNat_le
    omega
  · right
    have hmax : listMax (polygon.map Prod.snd) ≤ 0 :=
      listMax_le (hmapne _) (hmem _ _ h)
    have hceil : ⌈listMax (polygon.map Prod.snd)⌉ ≤ 0 :=
      Int.ceil_le.mpr (by exact_mod_cast hmax)
    have hE : polyYEnd size polygon = 0 := by
      unfold polyYEnd clamp
      omega
    omega
  · right
    have hmin : (size : ℚ) ≤ listMin (polygon.map Prod.snd) :=
      le_listMin (hmapne _) (hmem' _ _ h)
    have hfloor : (size : ℤ) ≤ ⌊listMin (polygon.map Prod.snd)⌋ :=
      Int.le_floor.mpr (by exact_mod_cast hmin)
    have hS : polyYStart size polygon = size := by
      unfold polyYStart clamp
      omega
    have hE : polyYEnd size polygon ≤ size := clamp_toNat_le
    omega

theorem fill_polygon_offcanvas_unchanged_witness :
    fill_polygon [9, 9, 9, 9] 1 [((-2 : ℚ), (-2 : ℚ)), (-1, -2), (-1, -1)] FG =
      [9, 9, 9, 9] :=
  fill_polygon_offcanvas_unchanged 1 [9, 9, 9, 9]
    [((-2 : ℚ), (-2 : ℚ)), (-1, -2), (-1, -1)] FG (by decide)
    (Or.inl (by decide))

theorem init_le_foldl_max :
    ∀ (xs : List ℚ) (x : ℚ), x ≤ xs.foldl max x := by
  intro xs
  induction xs with
  | nil =>
    intro x
    simp
  | cons y ys ih =>
    intro x
    rw [List.foldl_cons]
    exact le_trans (le_max_left x y) (ih (max x y))

theorem mem_le_foldl_max :
    ∀ (xs : List ℚ) (x a : ℚ), a ∈ xs → a ≤ xs.foldl max x := by
  intro xs
  induction xs with
  | nil =>
    intro x a ha
    simp at ha
  | cons y ys ih =>
    intro x a ha
    rw [List.foldl_cons]
    rcases List.mem_cons.mp ha with rfl | ha2
    · exact le_trans (le_max_right x a) (init_le_foldl_max ys (max x a))
    · exact ih (max x y) a ha2

theorem mem_le_listMax {l : List ℚ} {a : ℚ} (ha : a ∈ l) : a ≤ listMax l := by
  cases l with
  | nil => simp at ha
  | cons x xs =>
    rcases List.mem_cons.mp ha with rfl | ha2
    · exact init_le_foldl_max xs a
    · exact mem_le_foldl_max xs x a ha2

theorem foldl_min_le_init :
    ∀ (xs : List ℚ) (x : ℚ), xs.foldl min x ≤ x := by
  intro xs
  induction xs with
  | nil =>
    intro x
    simp
  | cons y ys ih =>
    intro x
    rw [List.foldl_cons]
    exact le_trans (ih (min x y)) (min_le_left x y)

theorem foldl_min_le_mem :
    ∀ (xs : List ℚ) (x a : ℚ), a ∈ xs → xs.foldl min x ≤ a := by
  intro xs
  induction xs with
  | nil =>
    intro x a ha
    simp at ha
  | cons y ys ih =>
    intro x a ha
    rw [List.foldl_cons]
    rcases List.mem_cons.mp ha with rfl | ha2
    · exact le_trans (foldl_min_le_init ys (min x a)) (min_le_right x a)
    · exact ih (min x y) a ha2

theorem listMin_le_mem {l : List ℚ} {a : ℚ} (ha : a ∈ l) : listMin l ≤ a := by
  cases l with
  | nil => simp at ha
  | cons x xs =>
    rcases List.mem_cons.mp ha with rfl | ha2
    · exact foldl_min_le_init xs a
    · exact foldl_min_le_mem xs x a ha2

theorem cexOffTriangle_scan :
    polyXStart 1 cexOffTriangle = 0 ∧ polyXEnd 1 cexOffTriangle = 1 ∧
    polyYStart 1 cexOffTriangle = 0 ∧ polyYEnd 1 cexOffTriangle = 1 := by
  have hxmin : listMin (cexOffTriangle.map Prod.fst) ≤ -1 :=
    listMin_le_mem (by simp [cexOffTriangle])
  have hxmax : (1/2 : ℚ) ≤ listMax (cexOffTriangle.map Prod.fst) :=
    mem_le_listMax (by simp [cexOffTriangle])
  have hymin : listMin (cexOffTriangle.map Prod.snd) ≤ -3 :=
    listMin_le_mem (by simp [cexOffTriangle])
  have hymax : (1/2 + 1/1000000000000 : ℚ) ≤
      listMax (cexOffTriangle.map Prod.snd) :=
    mem_le_listMax (by simp [cexOffTriangle])
  have hfx : ⌊listMin (cexOffTriangle.map Prod.fst)⌋ ≤ 0 := by
    have h1 : (↑⌊listMin (cexOffTriangle.map Prod.fst)⌋ : ℚ) ≤ 0 :=
      le_trans (le_trans (Int.floor_le _) hxmin) (by norm_num)
    exact_mod_cast h1
  have hcx : 1 ≤ ⌈listMax (cexOffTriangle.map Prod.fst)⌉ :=
    Int.ceil_pos.mpr (lt_of_lt_of_le (by norm_num) hxmax)
  have hfy : ⌊listMin (cexOffTriangle.map Prod.snd)⌋ ≤ 0 := by
    have h1 : (↑⌊listMin (cexOffTriangle.map Prod.snd)⌋ : ℚ) ≤ 0 :=
      le_trans (le_trans (Int.floor_le _) hymin) (by norm_num)
    exact_mod_cast h1
  have hcy : 1 ≤ ⌈listMax (cexOffTriangle.map Prod.snd)⌉ :=
    Int.ceil_pos.mpr (lt_of_lt_of_le (by norm_num) hymax)
  refine ⟨?_, ?_, ?_, ?_⟩
  · unfold polyXStart clamp
    omega
  · unfold polyXEnd clamp
    omega
  · unfold polyYStart clamp
    omega
  · unfold polyYEnd clamp
    omega

theorem pip_cexOffTriangle_eval :
    point_in_polygon (((0 : ℕ) : ℚ) + 1/2) (((0 : ℕ) : ℚ) + 1/2)
      cexOffTriangle = true := by
  norm_num [point_in_polygon, cexOffTriangle, List.rotate, EPS]

/-- C2 counterexample: both halves of the claim fail on the code.  The
rectangle `(-10, -10, -5, -5)` lies entirely outside the 1-pixel canvas,
yet `fill_rect` changes the canvas: both spans clamp to the empty span at 0
and the degenerate widening re-opens them, so pixel `(0, 0)` is painted.
And `cexOffTriangle` lies entirely outside the canvas (every point of it
with x ≥ 0 has y < 0), yet `fill_polygon` paints pixel `(0, 0)`: the
epsilon-perturbed intersection of its near-horizontal top edge jumps far to
the right of the pixel center. -/
theorem offcanvas_shapes_cex :
    fill_rect [46, 78, 138, 255] 1 ((-10 : ℚ), -10, -5, -5)
      (255, 255, 255, 255) ≠ [46, 78, 138, 255] ∧
    getPixel (fill_polygon [46, 78, 138, 255] 1 cexOffTriangle FG)
      (0 * 1 + 0) = colorBytes FG ∧
    getPixel [46, 78, 138, 255] (0 * 1 + 0) ≠ colorBytes FG := by
  refine ⟨by decide, ?_, by decide⟩
  rw [fill_polygon_getPixel (by decide) (by decide) (by decide)]
  rw [if_pos ⟨le_of_eq cexOffTriangle_scan.1,
    by rw [cexOffTriangle_scan.2.1]; norm_num,
    le_of_eq cexOffTriangle_scan.2.2.1,
    by rw [cexOffTriangle_scan.2.2.2]; norm_num,
    pip_cexOffTriangle_eval⟩]

/-- C3 (amended): for a rectangle whose clamped integer-rounded width
(respectively height) is zero, provided both clamped start positions lie
strictly inside the canvas, `fill_rect` widens the degenerate span by
exactly one unit and paints the whole one-pixel-wide column (respectively
row) at the nominal clamped position with the color.  (When the nominal
position clamps to the canvas edge nothing is painted; see the
counterexample.) -/
theorem fill_rect_degenerate_paints (size : ℕ) (buf : List ℕ) (rect : Rect)
    (color : Color) (hb : buf.length = size * size * 4)
    (hxs : rectXStart size rect < size) (hys : rectYStart size rect < size) :
    (rectXEnd size rect ≤ rectXStart size rect →
      widenEnd size (rectXStart size rect) (rectXEnd size rect) =
        rectXStart size rect + 1 ∧
      rectYStart size rect <
        widenEnd size (rectYStart size rect) (rectYEnd size rect) ∧
      ∀ qy : ℕ, rectYStart size rect ≤ qy →
        qy < widenEnd size (rectYStart size rect) (rectYEnd size rect) →
        getPixel (fill_rect buf size rect color)
          (qy * size + rectXStart size rect) = colorBytes color) ∧
    (rectYEnd size rect ≤ rectYStart size rect →
      widenEnd size (rectYStart size rect) (rectYEnd size rect) =
        rectYStart size rect + 1 ∧
      rectXStart size rect <
        widenEnd size (rectXStart size rect) (rectXEnd size rect) ∧
      ∀ qx : ℕ, rectXStart size rect ≤ qx →
        qx < widenEnd size (rectXStart size rect) (rectXEnd size rect) →
        getPixel (fill_rect buf size rect color)
          (rectYStart size rect * size + qx) = colorBytes color) := by
  have hyE : widenEnd size (rectYStart size rect) (rectYEnd size rect) ≤
      size := widenEnd_le clamp_toNat_le
  have hxE : widenEnd size (rectXStart size rect) (rectXEnd size rect) ≤
      size := widenEnd_le clamp_toNat_le
  constructor
  · intro hdeg
    have h1 : widenEnd size (rectXStart size rect) (rectXEnd size rect) =
        rectXStart size rect + 1 := by
      unfold widenEnd
      rw [if_pos hdeg]
      unfold clamp
      omega
    refine ⟨h1, ?_, ?_⟩
    · unfold widenEnd clamp
      split
      · omega
      · omega
    · intro qy hq1 hq2
      have hqy : qy < size := by omega
      rw [fill_rect_getPixel hb hxs hqy]
      rw [if_pos ⟨le_refl _, by omega, hq1, hq2⟩]
  · intro hdeg
    have h1 : widenEnd size (rectYStart size rect) (rectYEnd size rect) =
        rectYStart size rect + 1 := by
      unfold widenEnd
      rw [if_pos hdeg]
      unfold clamp
      omega
    refine ⟨h1, ?_, ?_⟩
    · unfold widenEnd clamp
      split
      · omega
      · omega
    · intro qx hq1 hq2
      have hqx : qx < size := by omega
      rw [fill_rect_getPixel hb hqx hys]
      rw [if_pos ⟨hq1, hq2, le_refl _, by omega⟩]

theorem fill_rect_degenerate_paints_witness :
    (widenEnd 4 (rectXStart 4 ((2 : ℚ), 1, 2, 1))
        (rectXEnd 4 ((2 : ℚ), 1, 2, 1)) =
      rectXStart 4 ((2 : ℚ), 1, 2, 1) + 1) ∧
    (rectYStart 4 ((2 : ℚ), 1, 2, 1) <
      widenEnd 4 (rectYStart 4 ((2 : ℚ), 1, 2, 1))
        (rectYEnd 4 ((2 : ℚ), 1, 2, 1))) ∧
    getPixel (fill_rect (List.replicate 64 0) 4 ((2 : ℚ), 1, 2, 1) FG)
      (1 * 4 + rectXStart 4 ((2 : ℚ), 1, 2, 1)) = colorBytes FG ∧
    (widenEnd 4 (rectYStart 4 ((2 : ℚ), 1, 2, 1))
        (rectYEnd 4 ((2 : ℚ), 1, 2, 1)) =
      rectYStart 4 ((2 : ℚ), 1, 2, 1) + 1) ∧
    (rectXStart 4 ((2 : ℚ), 1, 2, 1) <
      widenEnd 4 (rectXStart 4 ((2 : ℚ), 1, 2, 1))
        (rectXEnd 4 ((2 : ℚ), 1, 2, 1))) ∧
    getPixel (fill_rect (List.replicate 64 0) 4 ((2 : ℚ), 1, 2, 1) FG)
      (rectYStart 4 ((2 : ℚ), 1, 2, 1) * 4 + 2) = colorBytes FG := by
  have h := fill_rect_degenerate_paints 4 (List.replicate 64 0)
    ((2 : ℚ), 1, 2, 1) FG (by decide) (by decide) (by decide)
  have hW := h.1 (by decide)
  have hH := h.2 (by decide)
  exact ⟨hW.1, hW.2.1, hW.2.2 1 (by decide) (by decide),
    hH.1, hH.2.1, hH.2.2 2 (by decide) (by decide)⟩

/-- C3 counterexample: the rectangle `(2, 0, 2, 1)` has integer-rounded
width zero, but on a 1-pixel canvas its nominal column clamps to the right
edge, the widened span is empty, and no pixel at all is painted. -/
theorem fill_rect_degenerate_edge_cex :
    fill_rect [46, 78, 138, 255] 1 ((2 : ℚ), 0, 2, 1) (255, 255, 255, 255) =
      [46, 78, 138, 255] ∧
    getPixel (fill_rect [46, 78, 138, 255] 1 ((2 : ℚ), 0, 2, 1)
      (255, 255, 255, 255)) 0 ≠ colorBytes (255, 255, 255, 255) ∧
    rectXEnd 1 ((2 : ℚ), 0, 2, 1) ≤ rectXStart 1 ((2 : ℚ), 0, 2, 1) := by
  decide

/-- C10: every rasterizer operation (`set_pixel`, `fill_rect`,
`fill_polygon`) maps a buffer of length `size * size * 4` to a buffer of
exactly the same length: all writes replace 4-byte slices at pixel-aligned
in-bounds offsets. -/
theorem raster_ops_preserve_length (size : ℕ) (buf : List ℕ) (x y : ℤ)
    (color : Color) (rect : Rect) (polygon : Polygon)
    (hb : buf.length = size * size * 4) :
    (set_pixel buf size x y color).length = size * size * 4 ∧
    (fill_rect buf size rect color).length = size * size * 4 ∧
    (fill_polygon buf size polygon color).length = size * size * 4 :=
  ⟨set_pixel_length hb, fill_rect_length hb, fill_polygon_length hb⟩

theorem raster_ops_preserve_length_witness :
    (set_pixel [1, 2, 3, 4] 1 0 0 FG).length = 1 * 1 * 4 ∧
    (fill_rect [1, 2, 3, 4] 1 ((0 : ℚ), 0, 1, 1) FG).length = 1 * 1 * 4 ∧
    (fill_polygon [1, 2, 3, 4] 1 unitTri FG).length = 1 * 1 * 4 :=
  raster_ops_preserve_length 1 [1, 2, 3, 4] 0 0 FG ((0 : ℚ), 0, 1, 1) unitTri
    (by decide)

/-- C7 (amended): arc generation samples the ellipse at equal angular
increments inclusive of both endpoints, with the step count first clamped
below to 2: the list has `(max steps 2) + 1` points and the i-th point is
`(cx + cos(t_i) * rx, cy + sin(t_i) * ry)` with
`t_i = start + (end - start) * i / max(steps, 2)` in radians. -/
theorem arc_points_clamped_sampling (T : Trig)
    (cx cy rx ry startDeg endDeg : ℚ) (steps : ℤ) :
    (arc_points T cx cy rx ry startDeg endDeg steps).length =
      (if steps < 2 then 2 else steps).toNat + 1 ∧
    ∀ i : ℕ, i ≤ (if steps < 2 then 2 else steps).toNat →
      (arc_points T cx cy rx ry startDeg endDeg steps)[i]? =
        some (cx + T.cos (T.rad startDeg +
            (T.rad endDeg - T.rad startDeg) * i /
              ((if steps < 2 then 2 else steps : ℤ) : ℚ)) * rx,
          cy + T.sin (T.rad startDeg +
            (T.rad endDeg - T.rad startDeg) * i /
              ((if steps < 2 then 2 else steps : ℤ) : ℚ)) * ry) := by
  constructor
  · simp [arc_points]
  · intro i hi
    simp only [arc_points]
    rw [List.getElem?_map, List.getElem?_range (by omega)]
    rfl

theorem arc_points_clamped_sampling_witness :
    (arc_points trigZero 0 0 1 1 0 360 4).length =
      (if (4 : ℤ) < 2 then (2 : ℤ) else 4).toNat + 1 ∧
    (arc_points trigZero 0 0 1 1 0 360 4)[2]? =
      some (0 + trigZero.cos (trigZero.rad 0 +
          (trigZero.rad 360 - trigZero.rad 0) * ((2 : ℕ) : ℚ) /
            ((if (4 : ℤ) < 2 then (2 : ℤ) else 4) : ℚ)) * 1,
        0 + trigZero.sin (trigZero.rad 0 +
          (trigZero.rad 360 - trigZero.rad 0) * ((2 : ℕ) : ℚ) /
            ((if (4 : ℤ) < 2 then (2 : ℤ) else 4) : ℚ)) * 1) :=
  ⟨(arc_points_clamped_sampling trigZero 0 0 1 1 0 360 4).1,
   (arc_points_clamped_sampling trigZero 0 0 1 1 0 360 4).2 2 (by decide)⟩

/-- C7 counterexample: for step count 1 the claim predicts `steps + 1 = 2`
sample points, but the source clamps `steps` to 2 and yields 3 points. -/
theorem arc_points_steps_cex :
    (arc_points trigZero 0 0 1 1 0 360 1).length ≠ 1 + 1 := by decide

theorem foldl_append_flatten {α β : Type} (g : α → List β) :
    ∀ (L : List α) (init : List β),
      L.foldl (fun r a => r ++ g a) init = init ++ (L.map g).flatten := by
  intro L
  induction L with
  | nil =>
    intro init
    simp
  | cons a l ih =>
    intro init
    rw [List.foldl_cons, ih (init ++ g a)]
    simp [List.append_assoc]

theorem rawData_eq (buf : List ℕ) (size : ℕ) :
    rawData buf size = specScanlines buf size := by
  unfold rawData specScanlines
  rw [foldl_append_flatten (fun y => 0 :: (buf.drop (y * (size * 4))).take
    (size * 4))]
  simp

/-- C4: the container produced by `make_png` is the signature followed by
exactly three records in the spec's chunk format — an uncompressed header
chunk `IHDR` with width = height = size (big-endian), bit depth 8, color
type 6 and remaining fields 0; a data chunk `IDAT` whose payload is the
compression of the filter-byte-prefixed scanlines; and an empty end chunk
`IEND` — each serialized as 4-byte big-endian payload length, 4-byte tag,
payload, and a 32-bit checksum over tag ++ payload. -/
theorem make_png_chunk_layout (compress : List ℕ → List ℕ)
    (crc32 : List ℕ → ℕ) (T : Trig) (size : ℕ) :
    make_png compress crc32 T size =
      pngSignature ++
      specChunk crc32 ihdrType (be32 size ++ be32 size ++ [8, 6, 0, 0, 0]) ++
      specChunk crc32 idatType
        (compress (specScanlines (render T size) size)) ++
      specChunk crc32 iendType [] := by
  simp only [make_png, chunk, specChunk, rawData_eq]

/-- C9: for every output size (and any compressor, checksum and
trigonometry), the byte string produced by `make_png` begins with the fixed
8-byte signature `0x89 P N G 0x0D 0x0A 0x1A 0x0A`, placed before the first
chunk. -/
theorem make_png_signature_prefix (compress : List ℕ → List ℕ)
    (crc32 : List ℕ → ℕ) (T : Trig) (size : ℕ) :
    (make_png compress crc32 T size).take 8 =
      [0x89, 0x50, 0x4E, 0x47, 0x0D, 0x0A, 0x1A, 0x0A] ∧
    (make_png compress crc32 T size).drop 8 =
      chunk crc32 ihdrType (be32 size ++ be32 size ++ [8, 6, 0, 0, 0]) ++
      chunk crc32 idatType (compress (rawData (render T size) size)) ++
      chunk crc32 iendType [] := by
  have hdef : make_png compress crc32 T size =
      pngSignature ++
        (chunk crc32 ihdrType (be32 size ++ be32 size ++ [8, 6, 0, 0, 0]) ++
          chunk crc32 idatType (compress (rawData (render T size) size)) ++
          chunk crc32 iendType []) := by
    simp only [make_png, List.append_assoc]
  constructor
  · rw [hdef, List.take_left' (by rfl)]
    rfl
  · rw [hdef, List.drop_left' (by rfl)]

/-- C8: image assembly is deterministic and depends only on the output size
(given the same compressor, checksum and trigonometric library functions):
two invocations of `make_png` at equal sizes produce identical bytes; the
embedding is pure, with no persistent or ambient state. -/
theorem make_png_deterministic (compress : List ℕ → List ℕ)
    (crc32 : List ℕ → ℕ) (T : Trig) (size1 size2 : ℕ) (h : size1 = size2) :
    make_png compress crc32 T size1 = make_png compress crc32 T size2 := by
  rw [h]

theorem make_png_deterministic_witness :
    make_png (fun b => b) (fun _ => 0) trigZero 32 =
      make_png (fun b => b) (fun _ => 0) trigZero 32 :=
  make_png_deterministic (fun b => b) (fun _ => 0) trigZero 32 32 rfl

theorem ico_bytes_eq (png_data : List ℕ) (size : ℕ) :
    ico_bytes png_data size =
      [0, 0, 1, 0, 1, 0,
       if size < 256 then size else 0, if size < 256 then size else 0,
       0, 0, 0, 0, 0, 0] ++
      le32 png_data.length ++ [22, 0, 0, 0] ++ png_data := by
  simp [ico_bytes, le16, le32]

/-- C6: the icon file is a 6-byte header (reserved 0, type 1, count 1,
little-endian 2-byte fields) and one 16-byte directory entry whose
image-size field equals the byte length of the embedded image and whose
offset field equals 22, the absolute position at which the embedded bytes
start; the embedded bytes appear verbatim at offset 22, and the
width/height bytes equal the size when below 256 and 0 otherwise. -/
theorem write_ico_layout (png_data : List ℕ) (size : ℕ)
    (hlen : png_data.length < 4294967296) :
    ico_bytes png_data size =
      [0, 0, 1, 0, 1, 0,
       if size < 256 then size else 0, if size < 256 then size else 0,
       0, 0, 0, 0, 0, 0] ++
      le32 png_data.length ++ [22, 0, 0, 0] ++ png_data ∧
    (ico_bytes png_data size).drop 22 = png_data ∧
    (ico_bytes png_data size).length = 22 + png_data.length ∧
    readLe32 ((ico_bytes png_data size).drop 14) = png_data.length ∧
    readLe32 ((ico_bytes png_data size).drop 18) = 22 := by
  have h22 : ico_bytes png_data size =
      ([0, 0, 1, 0, 1, 0,
        if size < 256 then size else 0, if size < 256 then size else 0,
        0, 0, 0, 0, 0, 0] ++ le32 png_data.length ++ [22, 0, 0, 0]) ++
        png_data := by
    rw [ico_bytes_eq]
  refine ⟨ico_bytes_eq png_data size, ?_, ?_, ?_, ?_⟩
  · rw [h22]
    exact List.drop_left' (by simp [le32])
  · rw [h22, List.length_append]
    have hp : ([0, 0, 1, 0, 1, 0,
        if size < 256 then size else 0, if size < 256 then size else 0,
        0, 0, 0, 0, 0, 0] ++
        le32 png_data.length ++ [22, 0, 0, 0]).length = 22 := by
      simp [le32]
    rw [hp]
  · rw [ico_bytes_eq]
    show png_data.length % 256 + 256 * (png_data.length / 256 % 256) +
      65536 * (png_data.length / 65536 % 256) +
      16777216 * (png_data.length / 16777216 % 256) = png_data.length
    omega
  · rw [ico_bytes_eq]
    rfl

theorem be32_length (n : ℕ) : (be32 n).length = 4 := rfl

theorem readBe32_be32 {n : ℕ} (h : n < 4294967296) (rest : List ℕ) :
    readBe32 (be32 n ++ rest) = some (n, rest) := by
  have hval : (((n / 16777216 % 256) * 256 + n / 65536 % 256) * 256 +
      n / 256 % 256) * 256 + n % 256 = n := by
    omega
  show some ((((n / 16777216 % 256) * 256 + n / 65536 % 256) * 256 +
    n / 256 % 256) * 256 + n % 256, rest) = some (n, rest)
  rw [hval]

theorem parseChunks_cons (crc32 : List ℕ → ℕ) (fuel : ℕ) (t d rest : List ℕ)
    (ht : t.length = 4) (hd : d.length < 4294967296) :
    parseChunks (fuel + 1) (chunk crc32 t d ++ rest) =
      (parseChunks fuel rest).map (fun cs => (t, d) :: cs) := by
  have hchunk : chunk crc32 t d ++ rest =
      (d.length / 16777216 % 256) :: (d.length / 65536 % 256) ::
      (d.length / 256 % 256) :: (d.length % 256) ::
      (t ++ (d ++ (be32 (crc32 (t ++ d) % 4294967296) ++ rest))) := by
    simp [chunk, be32, List.append_assoc]
  rw [hchunk]
  simp only [parseChunks]
  have hread : readBe32 ((d.length / 16777216 % 256) ::
      (d.length / 65536 % 256) :: (d.length / 256 % 256) ::
      (d.length % 256) ::
      (t ++ (d ++ (be32 (crc32 (t ++ d) % 4294967296) ++ rest)))) =
      some (d.length, t ++ (d ++ (be32 (crc32 (t ++ d) % 4294967296) ++
        rest))) := by
    have := readBe32_be32 hd
      (t ++ (d ++ (be32 (crc32 (t ++ d) % 4294967296) ++ rest)))
    simpa [be32] using this
  rw [hread]
  dsimp only
  have hr1len : (t ++ (d ++ (be32 (crc32 (t ++ d) % 4294967296) ++
      rest))).length = 4 + (d.length + (4 + rest.length)) := by
    simp [ht, be32_length]
  rw [if_pos (by rw [hr1len]; omega)]
  rw [List.drop_left' ht, List.take_left' ht, List.drop_left, List.take_left,
    List.drop_left' (be32_length _)]
  cases hpc : parseChunks fuel rest <;> simp

theorem flatten_drop_uniform (k : ℕ) :
    ∀ (i : ℕ) (L : List (List ℕ)), (∀ r ∈ L, r.length = k) →
      (L.flatten).drop (i * k) = (L.drop i).flatten := by
  intro i
  induction i with
  | zero =>
    intro L _
    simp
  | succ n ih =>
    intro L hL
    cases L with
    | nil => simp
    | cons r L2 =>
      have hr : r.length = k := hL r (by simp)
      calc ((r :: L2).flatten).drop ((n + 1) * k)
          = ((r ++ L2.flatten).drop r.length).drop (n * k) := by
            rw [List.drop_drop, List.flatten_cons]
            congr 1
            rw [hr]
            ring
        _ = (L2.flatten).drop (n * k) := by rw [List.drop_left]
        _ = (L2.drop n).flatten := ih L2 (fun r2 hr2 => hL r2 (by simp [hr2]))

theorem flatten_map_take_drop (k : ℕ) :
    ∀ (n : ℕ) (buf : List ℕ), buf.length = n * k →
      ((List.range n).map (fun y => (buf.drop (y * k)).take k)).flatten =
        buf := by
  intro n
  induction n with
  | zero =>
    intro buf hb
    simp only [List.range_zero, List.map_nil, List.flatten_nil]
    exact (List.eq_nil_of_length_eq_zero (by omega)).symm
  | succ n ih =>
    intro buf hb
    rw [List.range_succ_eq_map, List.map_cons, List.map_map,
      List.flatten_cons]
    have hhead : (buf.drop (0 * k)).take k = buf.take k := by norm_num
    rw [hhead]
    have hfun : ((fun y => (buf.drop (y * k)).take k) ∘ Nat.succ) =
        fun y => ((buf.drop k).drop (y * k)).take k := by
      funext y
      simp only [Function.comp]
      rw [List.drop_drop]
      congr 2
      rw [Nat.succ_eq_add_one]
      ring
    rw [hfun]
    have hlen : (buf.drop k).length = n * k := by
      have hx : (n + 1) * k = n * k + k := by ring
      simp only [List.length_drop, hb, hx]
      omega
    rw [ih (buf.drop k) hlen]
    exact List.take_append_drop k buf

theorem scan_row_length {buf : List ℕ} {size y : ℕ}
    (hb : buf.length = size * size * 4) (hy : y < size) :
    ((buf.drop (y * (size * 4))).take (size * 4)).length = size * 4 := by
  simp only [List.length_take, List.length_drop, hb]
  have h1 : y * (size * 4) + size * 4 ≤ size * size * 4 := by
    calc y * (size * 4) + size * 4 = (y + 1) * (size * 4) := by ring
    _ ≤ size * (size * 4) := Nat.mul_le_mul_right _ hy
    _ = size * size * 4 := by ring
  have h2 : size * 4 ≤ size * size * 4 - y * (size * 4) :=
    Nat.le_sub_of_add_le (by rw [Nat.add_comm]; exact h1)
  rw [Nat.min_eq_left h2]

theorem specScanlines_rows_length {buf : List ℕ} {size : ℕ}
    (hb : buf.length = size * size * 4) :
    ∀ r ∈ (List.range size).map
      (fun y => (0 : ℕ) :: (buf.drop (y * (size * 4))).take (size * 4)),
      r.length = size * 4 + 1 := by
  intro r hr
  rw [List.mem_map] at hr
  obtain ⟨y, hy, rfl⟩ := hr
  rw [List.mem_range] at hy
  rw [List.length_cons, scan_row_length hb hy]

theorem unfilter_specScanlines {buf : List ℕ} {size : ℕ}
    (hb : buf.length = size * size * 4) :
    ((List.range size).map (fun y =>
      (((specScanlines buf size).drop (y * (size * 4 + 1))).drop 1).take
        (size * 4))).flatten = buf := by
  have hcong : ∀ y ∈ List.range size,
      (((specScanlines buf size).drop (y * (size * 4 + 1))).drop 1).take
          (size * 4) =
        (buf.drop (y * (size * 4))).take (size * 4) := by
    intro y hy
    have hyr := hy
    rw [List.mem_range] at hyr
    have hdrop : (specScanlines buf size).drop (y * (size * 4 + 1)) =
        (((List.range size).map (fun y2 =>
          (0 : ℕ) :: (buf.drop (y2 * (size * 4))).take (size * 4))).drop
            y).flatten :=
      flatten_drop_uniform (size * 4 + 1) y _ (specScanlines_rows_length hb)
    rw [hdrop]
    have hyl : y < ((List.range size).map (fun y2 =>
        (0 : ℕ) :: (buf.drop (y2 * (size * 4))).take (size * 4))).length := by
      simpa using hyr
    rw [List.drop_eq_getElem_cons hyl, List.flatten_cons]
    have hget : ((List.range size).map (fun y2 =>
        (0 : ℕ) :: (buf.drop (y2 * (size * 4))).take (size * 4)))[y] =
        (0 : ℕ) :: (buf.drop (y * (size * 4))).take (size * 4) := by
      simp
    rw [hget, List.cons_append, List.drop_one, List.tail_cons]
    exact List.take_left' (scan_row_length hb hyr)
  rw [List.map_congr_left hcong]
  exact flatten_map_take_drop (size * 4) size buf (by rw [hb]; ring)

theorem render_length (T : Trig) (size : ℕ) :
    (render T size).length = size * size * 4 := by
  have h0 : ((List.replicate (size * size) (colorBytes BG)).flatten).length =
      size * size * 4 := by
    rw [List.length_flatten, List.map_replicate]
    simp [colorBytes_length, List.sum_replicate, smul_eq_mul,
      Nat.mul_assoc]
  exact fill_polygon_length (fill_polygon_length (fill_rect_length
    (fill_polygon_length (fill_polygon_length h0))))

theorem specScanlines_length {buf : List ℕ} {size : ℕ}
    (hb : buf.length = size * size * 4) :
    (specScanlines buf size).length = size * (size * 4 + 1) := by
  unfold specScanlines
  rw [List.length_flatten, List.map_map]
  have hcong : ∀ y ∈ List.range size,
      (List.length ∘ fun y2 =>
        (0 : ℕ) :: (buf.drop (y2 * (size * 4))).take (size * 4)) y =
        size * 4 + 1 := by
    intro y hy
    rw [List.mem_range] at hy
    simp only [Function.comp, List.length_cons, scan_row_length hb hy]
  rw [List.map_congr_left hcong, List.map_const', List.length_range,
    List.sum_replicate, smul_eq_mul]

theorem rawData_length {buf : List ℕ} {size : ℕ}
    (hb : buf.length = size * size * 4) :
    (rawData buf size).length = size * (size * 4 + 1) := by
  rw [rawData_eq]
  exact specScanlines_length hb

/-- C5: for every supported output size, decoding the container produced by
`make_png` — checking the signature, parsing the chunks, decompressing the
data payload with an inverse of the compressor, and stripping the
per-scanline filter bytes — yields the declared width = height = size, bit
depth 8, RGBA color type 6, and exactly the canvas bytes that were
encoded. -/
theorem make_png_decode_roundtrip (compress decompress : List ℕ → List ℕ)
    (crc32 : List ℕ → ℕ) (T : Trig) (size : ℕ)
    (hsize : size = 32 ∨ size = 192 ∨ size = 512)
    (hinv : decompress (compress (rawData (render T size) size)) =
      rawData (render T size) size)
    (hclen : (compress (rawData (render T size) size)).length < 4294967296) :
    decode_png decompress (make_png compress crc32 T size) =
      some (size, size, 8, 6, render T size) := by
  have hsize32 : size < 4294967296 := by
    rcases hsize with h | h | h <;> omega
  have hbytes : make_png compress crc32 T size =
      pngSignature ++
        (chunk crc32 ihdrType (be32 size ++ (be32 size ++ [8, 6, 0, 0, 0])) ++
          (chunk crc32 idatType (compress (rawData (render T size) size)) ++
            (chunk crc32 iendType [] ++ []))) := by
    simp only [make_png, List.append_assoc, List.append_nil]
  rw [hbytes]
  unfold decode_png
  rw [List.take_left' (show pngSignature.length = 8 from rfl)]
  rw [if_pos rfl]
  rw [List.drop_left' (show pngSignature.length = 8 from rfl)]
  have hge : 3 ≤ (pngSignature ++
      (chunk crc32 ihdrType (be32 size ++ (be32 size ++ [8, 6, 0, 0, 0])) ++
        (chunk crc32 idatType (compress (rawData (render T size) size)) ++
          (chunk crc32 iendType [] ++ [])))).length := by
    simp [pngSignature]
  obtain ⟨m, hm⟩ : ∃ m, (pngSignature ++
      (chunk crc32 ihdrType (be32 size ++ (be32 size ++ [8, 6, 0, 0, 0])) ++
        (chunk crc32 idatType (compress (rawData (render T size) size)) ++
          (chunk crc32 iendType [] ++ [])))).length = m + 1 + 1 + 1 :=
    ⟨(pngSignature ++
      (chunk crc32 ihdrType (be32 size ++ (be32 size ++ [8, 6, 0, 0, 0])) ++
        (chunk crc32 idatType (compress (rawData (render T size) size)) ++
          (chunk crc32 iendType [] ++ [])))).length - 3, by omega⟩
  rw [hm]
  rw [parseChunks_cons crc32 (m + 1 + 1) ihdrType
    (be32 size ++ (be32 size ++ [8, 6, 0, 0, 0])) _ rfl (by norm_num [be32])]
  rw [parseChunks_cons crc32 (m + 1) idatType
    (compress (rawData (render T size) size)) _ rfl hclen]
  rw [parseChunks_cons crc32 m iendType [] [] rfl (by norm_num)]
  rw [show parseChunks m [] = some [] from by cases m <;> rfl]
  simp only [Option.map_some']
  rw [if_pos (by simp)]
  rw [readBe32_be32 hsize32]
  dsimp only
  rw [readBe32_be32 hsize32]
  dsimp only
  rw [hinv, rawData_eq]
  rw [unfilter_specScanlines (render_length T size)]

theorem make_png_decode_roundtrip_witness :
    decode_png (fun b => b) (make_png (fun b => b) (fun _ => 0) trigZero 32) =
      some (32, 32, 8, 6, render trigZero 32) :=
  make_png_decode_roundtrip (fun b => b) (fun b => b) (fun _ => 0) trigZero 32
    (Or.inl rfl) rfl
    (by
      show (rawData (render trigZero 32) 32).length < 4294967296
      rw [rawData_length (render_length trigZero 32)]
      norm_num)

theorem write_ico_layout_witness :
    (ico_bytes [1, 2, 3] 32).drop 22 = [1, 2, 3] ∧
    readLe32 ((ico_bytes [1, 2, 3] 32).drop 14) = ([1, 2, 3] : List ℕ).length ∧
    readLe32 ((ico_bytes [1, 2, 3] 32).drop 18) = 22 ∧
    (ico_bytes [1, 2, 3] 32).length = 22 + ([1, 2, 3] : List ℕ).length :=
  ⟨(write_ico_layout [1, 2, 3] 32 (by norm_num)).2.1,
   (write_ico_layout [1, 2, 3] 32 (by norm_num)).2.2.2.1,
   (write_ico_layout [1, 2, 3] 32 (by norm_num)).2.2.2.2,
   (write_ico_layout [1, 2, 3] 32 (by norm_num)).2.2.1⟩
